import Mathlib

/-!
Verification of the core of a small code-search CLI (file-tree traversal,
literal-token match predicate, and a windowed, result-capped line searcher).

The JavaScript source is shallowly embedded: the ambient file system is a
value of an inductive tree type, the readFile syscall is a function
`String → Option String` (none models a read/decode failure), and each
JS function is translated into a Lean function with the same control flow.
-/

/-- A search hit: file path, 1-based line number, and context snippet.
Embeds the object literal pushed in searchFiles. -/
structure MatchRecord where
  file : String
  line : Nat
  snippet : String
deriving DecidableEq, Repr

/-- Splitting file content on the regex pattern backslash-r-question-backslash-n:
each line break is either a bare newline or a carriage return followed by a
newline; a carriage return not followed by a newline stays inside the line. -/
def splitLinesAux : List Char → List Char → List String
  | [], acc => [String.mk acc.reverse]
  | '\r' :: '\n' :: rest, acc => String.mk acc.reverse :: splitLinesAux rest []
  | '\n' :: rest, acc => String.mk acc.reverse :: splitLinesAux rest []
  | c :: rest, acc => splitLinesAux rest (c :: acc)

/-- Embeds content.split on the line-break regex in searchFiles. -/
def splitLines (s : String) : List String :=
  splitLinesAux s.data []

/-- The record built for a hit at 0-based index i: snippet is the slice of
lines from max(0, i - w) (Nat subtraction) to min(lineCount, i + w + 1),
joined with newlines, exactly as in the source. -/
def mkRec (file : String) (lines : List String) (w i : Nat) : MatchRecord :=
  { file := file
    line := i + 1
    snippet := String.intercalate "\n"
      ((lines.drop (i - w)).take (min lines.length (i + w + 1) - (i - w))) }

/-- The inner line loop of searchFiles: walk the remaining lines with their
0-based index, test the predicate, push a record per hit, and stop as soon as
the accumulated result count reaches maxR (the break after results.push). -/
def scanFrom (f : String) (lines : List String) (pred : String → Bool)
    (w maxR : Nat) : List String → Nat → List MatchRecord → List MatchRecord
  | [], _, acc => acc
  | line :: rem, i, acc =>
    if pred line then
      let acc' := acc ++ [mkRec f lines w i]
      if maxR ≤ acc'.length then acc' else scanFrom f lines pred w maxR rem (i + 1) acc'
    else scanFrom f lines pred w maxR rem (i + 1) acc

/-- The outer file loop of searchFiles: break before reading once the cap is
reached; a failed read (rf gives none) skips the file silently. -/
def searchGo (rf : String → Option String) (pred : String → Bool)
    (w maxR : Nat) : List String → List MatchRecord → List MatchRecord
  | [], acc => acc
  | f :: rest, acc =>
    if maxR ≤ acc.length then acc
    else
      match rf f with
      | none => searchGo rf pred w maxR rest acc
      | some c =>
        searchGo rf pred w maxR rest
          (scanFrom f (splitLines c) pred w maxR (splitLines c) 0 acc)

/-- Embeds searchFiles(files, regex, windowLines, maxResults), with the
ambient fs.promises.readFile modelled by rf. -/
def searchFiles (rf : String → Option String) (files : List String)
    (pred : String → Bool) (w maxR : Nat) : List MatchRecord :=
  searchGo rf pred w maxR files []

/-- Specification-side list of every hit of a file, uncapped: one record per
line satisfying the predicate, in line order. -/
def matchRecordsFrom (f : String) (lines : List String) (pred : String → Bool)
    (w : Nat) : List String → Nat → List MatchRecord
  | [], _ => []
  | line :: rem, i =>
    (if pred line then [mkRec f lines w i] else []) ++
      matchRecordsFrom f lines pred w rem (i + 1)

/-- Every hit of a file, starting the index at 0 over the whole line list. -/
def fileMatches (f : String) (pred : String → Bool) (w : Nat) (c : String) :
    List MatchRecord :=
  matchRecordsFrom f (splitLines c) pred w (splitLines c) 0

/-- Specification-side list of every hit across a file sequence, uncapped;
unreadable files contribute nothing. -/
def allMatches (rf : String → Option String) (pred : String → Bool)
    (w : Nat) : List String → List MatchRecord
  | [] => []
  | f :: rest =>
    (match rf f with
     | none => []
     | some c => fileMatches f pred w c) ++ allMatches rf pred w rest

/-- Instrumented file loop: additionally counts how many readFile calls are
issued (one per file actually reached before the cap). -/
def searchGoI (rf : String → Option String) (pred : String → Bool)
    (w maxR : Nat) : List String → List MatchRecord → Nat → List MatchRecord × Nat
  | [], acc, n => (acc, n)
  | f :: rest, acc, n =>
    if maxR ≤ acc.length then (acc, n)
    else
      match rf f with
      | none => searchGoI rf pred w maxR rest acc (n + 1)
      | some c =>
        searchGoI rf pred w maxR rest
          (scanFrom f (splitLines c) pred w maxR (splitLines c) 0 acc) (n + 1)

/-- Number of readFile calls issued by a search run (instrumented source). -/
def searchFilesReads (rf : String → Option String) (files : List String)
    (pred : String → Bool) (w maxR : Nat) : Nat :=
  (searchGoI rf pred w maxR files [] 0).2

/-- Instrumented line loop: additionally counts predicate evaluations. -/
def scanFromI (f : String) (lines : List String) (pred : String → Bool)
    (w maxR : Nat) : List String → Nat → List MatchRecord → Nat → List MatchRecord × Nat
  | [], _, acc, n => (acc, n)
  | line :: rem, i, acc, n =>
    if pred line then
      let acc' := acc ++ [mkRec f lines w i]
      if maxR ≤ acc'.length then (acc', n + 1)
      else scanFromI f lines pred w maxR rem (i + 1) acc' (n + 1)
    else scanFromI f lines pred w maxR rem (i + 1) acc (n + 1)

/-- Number of predicate evaluations spent scanning one file's lines. -/
def scanPredCalls (f : String) (lines : List String) (pred : String → Bool)
    (w maxR : Nat) : Nat :=
  (scanFromI f lines pred w maxR lines 0 [] 0).2

example : splitLines "a\r\nb\nc" = ["a", "b", "c"] := by decide
example : splitLines "a\rb" = ["a\rb"] := by decide
example : splitLines "" = [""] := by decide
example :
    searchFiles (fun _ => some "x\ny\nx") ["f"] (fun s => s == "x") 1 5 =
      [⟨"f", 1, "x\ny"⟩, ⟨"f", 3, "y\nx"⟩] := by decide
example :
    searchFiles (fun _ => some "x\ny\nx") ["f", "g"] (fun s => s == "x") 0 3 =
      [⟨"f", 1, "x"⟩, ⟨"f", 3, "x"⟩, ⟨"g", 1, "x"⟩] := by decide

/-- One step of the line loop appends exactly the next hits, truncated to the
remaining budget. -/
theorem scanFrom_append_take (f : String) (lines : List String)
    (pred : String → Bool) (w maxR : Nat) :
    ∀ (rem : List String) (i : Nat) (acc : List MatchRecord),
      acc.length < maxR →
      scanFrom f lines pred w maxR rem i acc =
        acc ++ (matchRecordsFrom f lines pred w rem i).take (maxR - acc.length) := by
  intro rem
  induction rem with
  | nil => intro i acc _; simp [scanFrom, matchRecordsFrom]
  | cons line rem ih =>
    intro i acc hacc
    by_cases hp : pred line
    · rw [scanFrom, matchRecordsFrom]
      simp only [hp, if_pos]
      by_cases hcap : maxR ≤ (acc ++ [mkRec f lines w i]).length
      · rw [if_pos hcap]
        have hlen : maxR - acc.length = 1 := by
          simp only [List.length_append, List.length_cons, List.length_nil] at hcap
          omega
        rw [hlen]
        simp
      · rw [if_neg hcap]
        have hlt : (acc ++ [mkRec f lines w i]).length < maxR := Nat.lt_of_not_le hcap
        rw [ih (i + 1) _ hlt]
        obtain ⟨k, hk⟩ : ∃ k, maxR - acc.length = k + 1 := ⟨maxR - acc.length - 1, by omega⟩
        rw [hk]
        have hk' : maxR - (acc ++ [mkRec f lines w i]).length = k := by
          simp only [List.length_append, List.length_cons, List.length_nil] at hk ⊢
          omega
        rw [hk']
        simp
    · rw [scanFrom, matchRecordsFrom]
      simp only [hp, if_neg, Bool.false_eq_true, not_false_iff]
      rw [ih (i + 1) acc hacc]
      simp

/-- Unfolding equation for fileMatches. -/
theorem fileMatches_def (f : String) (pred : String → Bool) (w : Nat) (c : String) :
    fileMatches f pred w c = matchRecordsFrom f (splitLines c) pred w (splitLines c) 0 :=
  rfl

/-- The file loop appends all remaining hits, truncated to the remaining
budget. -/
theorem searchGo_spec (rf : String → Option String) (pred : String → Bool)
    (w maxR : Nat) :
    ∀ (files : List String) (acc : List MatchRecord),
      acc.length ≤ maxR →
      searchGo rf pred w maxR files acc =
        acc ++ (allMatches rf pred w files).take (maxR - acc.length) := by
  intro files
  induction files with
  | nil => intro acc _; simp [searchGo, allMatches]
  | cons f rest ih =>
    intro acc hacc
    rw [searchGo, allMatches]
    by_cases hcap : maxR ≤ acc.length
    · rw [if_pos hcap]
      have : maxR - acc.length = 0 := by omega
      rw [this]
      simp
    · rw [if_neg hcap]
      have hlt : acc.length < maxR := Nat.lt_of_not_le hcap
      cases hrf : rf f with
      | none =>
        dsimp only
        rw [ih acc hacc]
        simp
      | some c =>
        dsimp only
        rw [scanFrom_append_take f (splitLines c) pred w maxR (splitLines c) 0 acc hlt,
          ← fileMatches_def]
        have hlen :
            (acc ++ (fileMatches f pred w c).take (maxR - acc.length)).length ≤ maxR := by
          simp only [List.length_append, List.length_take]
          omega
        rw [ih _ hlen, List.take_append_eq_append_take]
        have harith :
            maxR - (acc ++ (fileMatches f pred w c).take (maxR - acc.length)).length =
              maxR - acc.length - (fileMatches f pred w c).length := by
          simp only [List.length_append, List.length_take]
          omega
        rw [harith]
        simp [fileMatches, List.append_assoc]

/-- The searcher is the uncapped hit list truncated to maxResults. -/
theorem searchFiles_eq_take (rf : String → Option String) (files : List String)
    (pred : String → Bool) (w maxR : Nat) :
    searchFiles rf files pred w maxR = (allMatches rf pred w files).take maxR := by
  have h := searchGo_spec rf pred w maxR files [] (by simp)
  simpa [searchFiles] using h

/-- The uncapped hit list distributes over file-sequence concatenation. -/
theorem allMatches_append (rf : String → Option String) (pred : String → Bool)
    (w : Nat) (a b : List String) :
    allMatches rf pred w (a ++ b) = allMatches rf pred w a ++ allMatches rf pred w b := by
  induction a with
  | nil => simp [allMatches]
  | cons f rest ih => simp [allMatches, ih]

/-- The instrumented file loop returns the same results as the plain one. -/
theorem searchGoI_fst (rf : String → Option String) (pred : String → Bool)
    (w maxR : Nat) :
    ∀ (files : List String) (acc : List MatchRecord) (n : Nat),
      (searchGoI rf pred w maxR files acc n).1 = searchGo rf pred w maxR files acc := by
  intro files
  induction files with
  | nil => intro acc n; rfl
  | cons f rest ih =>
    intro acc n
    rw [searchGoI, searchGo]
    by_cases hcap : maxR ≤ acc.length
    · rw [if_pos hcap, if_pos hcap]
    · rw [if_neg hcap, if_neg hcap]
      cases rf f with
      | none => exact ih acc (n + 1)
      | some c => exact ih _ (n + 1)

/-- Once the accumulator has reached the cap, the instrumented file loop
issues no further readFile call. -/
theorem searchGoI_capped (rf : String → Option String) (pred : String → Bool)
    (w maxR : Nat) (files : List String) (acc : List MatchRecord) (n : Nat)
    (h : maxR ≤ acc.length) :
    searchGoI rf pred w maxR files acc n = (acc, n) := by
  cases files with
  | nil => rfl
  | cons f rest => rw [searchGoI, if_pos h]

/-- Running the instrumented file loop over a concatenation is running it over
the two halves in sequence. -/
theorem searchGoI_append (rf : String → Option String) (pred : String → Bool)
    (w maxR : Nat) :
    ∀ (a b : List String) (acc : List MatchRecord) (n : Nat),
      searchGoI rf pred w maxR (a ++ b) acc n =
        searchGoI rf pred w maxR b (searchGoI rf pred w maxR a acc n).1
          (searchGoI rf pred w maxR a acc n).2 := by
  intro a
  induction a with
  | nil => intro b acc n; rfl
  | cons f rest ih =>
    intro b acc n
    rw [List.cons_append, searchGoI, searchGoI]
    by_cases hcap : maxR ≤ acc.length
    · rw [if_pos hcap, if_pos hcap]
      exact (searchGoI_capped rf pred w maxR b acc n hcap).symm
    · rw [if_neg hcap, if_neg hcap]
      cases rf f with
      | none => exact ih b acc (n + 1)
      | some c => exact ih b _ (n + 1)

/-- The instrumented line loop returns the same results as the plain one. -/
theorem scanFromI_fst (f : String) (lines : List String) (pred : String → Bool)
    (w maxR : Nat) :
    ∀ (rem : List String) (i : Nat) (acc : List MatchRecord) (n : Nat),
      (scanFromI f lines pred w maxR rem i acc n).1 =
        scanFrom f lines pred w maxR rem i acc := by
  intro rem
  induction rem with
  | nil => intro i acc n; rfl
  | cons line rem ih =>
    intro i acc n
    rw [scanFromI, scanFrom]
    by_cases hp : pred line
    · simp only [hp, if_pos]
      by_cases hcap : maxR ≤ (acc ++ [mkRec f lines w i]).length
      · rw [if_pos hcap, if_pos hcap]
      · rw [if_neg hcap, if_neg hcap]
        exact ih (i + 1) _ (n + 1)
    · simp only [hp, Bool.false_eq_true, if_neg, not_false_iff]
      exact ih (i + 1) acc (n + 1)

/-- If a line-loop run over the original lines reaches the cap, the run over
the same lines extended by any suffix performs exactly the same number of
predicate evaluations: scanning stops at the capping line, so the appended
lines are never tested.  The snippet source arrays may differ between the two
runs; only the lengths of the accumulators drive the control flow. -/
theorem scanFromI_calls_stable (pred : String → Bool) (w maxR : Nat)
    (f g : String) (lines glines : List String) (extra : List String) :
    ∀ (rem : List String) (i : Nat) (acc1 acc2 : List MatchRecord) (n : Nat),
      acc1.length = acc2.length →
      acc1.length < maxR →
      (scanFrom f lines pred w maxR rem i acc1).length = maxR →
      (scanFromI g glines pred w maxR (rem ++ extra) i acc2 n).2 =
        (scanFromI f lines pred w maxR rem i acc1 n).2 := by
  intro rem
  induction rem with
  | nil =>
    intro i acc1 acc2 n hlen hlt hcap
    rw [scanFrom] at hcap
    omega
  | cons line rem ih =>
    intro i acc1 acc2 n hlen hlt hcap
    rw [List.cons_append, scanFromI, scanFromI, scanFrom] at *
    by_cases hp : pred line
    · simp only [hp, if_pos] at hcap ⊢
      by_cases hstop : maxR ≤ (acc1 ++ [mkRec f lines w i]).length
      · have hstop2 : maxR ≤ (acc2 ++ [mkRec g glines w i]).length := by
          simp only [List.length_append, List.length_cons, List.length_nil] at hstop ⊢
          omega
        rw [if_pos hstop, if_pos hstop2]
      · have hstop2 : ¬ maxR ≤ (acc2 ++ [mkRec g glines w i]).length := by
          simp only [List.length_append, List.length_cons, List.length_nil] at hstop ⊢
          omega
        rw [if_neg hstop, if_neg hstop2]
        rw [if_neg hstop] at hcap
        refine ih (i + 1) _ _ (n + 1) ?_ (Nat.lt_of_not_le hstop) hcap
        simp only [List.length_append, List.length_cons, List.length_nil]
        omega
    · simp only [hp, Bool.false_eq_true, if_neg, not_false_iff] at hcap ⊢
      exact ih (i + 1) acc1 acc2 (n + 1) hlen hlt hcap

/-- C1: with maxResults > 0, search returns at most maxResults records; once
the accumulated count reaches maxResults, appending further files changes
neither the result list nor the number of readFile calls (no further file is
read), and once a file's line scan reaches the cap, appending further lines to
that file does not change the number of predicate evaluations (no further line
of the current file is scanned). -/
theorem claim_C1 (rf : String → Option String) (files : List String)
    (pred : String → Bool) (w maxR : Nat) (hpos : 0 < maxR) :
    (searchFiles rf files pred w maxR).length ≤ maxR ∧
    ((searchFiles rf files pred w maxR).length = maxR →
      (∀ extra, searchFiles rf (files ++ extra) pred w maxR =
        searchFiles rf files pred w maxR) ∧
      (∀ extra, searchFilesReads rf (files ++ extra) pred w maxR =
        searchFilesReads rf files pred w maxR)) ∧
    (∀ (f : String) (lines extraLines : List String),
      (scanFrom f lines pred w maxR lines 0 []).length = maxR →
      scanPredCalls f (lines ++ extraLines) pred w maxR =
        scanPredCalls f lines pred w maxR) := by
  refine ⟨?_, fun hfull => ⟨?_, ?_⟩, ?_⟩
  · rw [searchFiles_eq_take]
    simp only [List.length_take]
    omega
  · intro extra
    rw [searchFiles_eq_take] at hfull ⊢
    rw [searchFiles_eq_take, allMatches_append, List.take_append_eq_append_take]
    simp only [List.length_take] at hfull
    have : maxR - (allMatches rf pred w files).length = 0 := by omega
    rw [this]
    simp
  · intro extra
    have hfull' : maxR ≤ (searchGo rf pred w maxR files []).length := by
      rw [show searchGo rf pred w maxR files [] = searchFiles rf files pred w maxR from rfl,
        hfull]
    unfold searchFilesReads
    rw [searchGoI_append]
    rw [searchGoI_capped rf pred w maxR extra _ _ (by rw [searchGoI_fst]; exact hfull')]
  · intro f lines extraLines hcap
    unfold scanPredCalls
    exact scanFromI_calls_stable pred w maxR f f lines (lines ++ extraLines) extraLines
      lines 0 [] [] 0 rfl (by simpa using hpos) hcap

/-- Closed instance of C1: a search over two all-matching files with cap 1
returns at most one record. -/
theorem claim_C1_witness :
    (searchFiles (fun _ => some "x\ny") ["a", "b"] (fun _ => true) 0 1).length ≤ 1 :=
  (claim_C1 (fun _ => some "x\ny") ["a", "b"] (fun _ => true) 0 1 (by decide)).1

/-- C8: a file whose read or decode fails (readFile gives none) is skipped
entirely: the search over the sequence with that file removed returns exactly
the same result list, so earlier results are unchanged, later files still
contribute, and no error surfaces (the searcher is total). -/
theorem claim_C8 (rf : String → Option String) (pre : List String) (f : String)
    (post : List String) (pred : String → Bool) (w maxR : Nat)
    (hf : rf f = none) :
    searchFiles rf (pre ++ f :: post) pred w maxR =
      searchFiles rf (pre ++ post) pred w maxR := by
  rw [searchFiles_eq_take, searchFiles_eq_take, allMatches_append, allMatches_append]
  rw [allMatches, hf]
  simp

/-- Closed instance of C8: with the middle file unreadable, the three-file
search equals the two-file search. -/
theorem claim_C8_witness :
    searchFiles (fun s => if s = "bad" then none else some "hit")
        ["good1", "bad", "good2"] (fun _ => true) 1 9 =
      searchFiles (fun s => if s = "bad" then none else some "hit")
        ["good1", "good2"] (fun _ => true) 1 9 :=
  claim_C8 (fun s => if s = "bad" then none else some "hit") ["good1"] "bad"
    ["good2"] (fun _ => true) 1 9 (by decide)

/-- Characterization of the uncapped hit list: its members are exactly the
records of the matching positions of the scanned line list. -/
theorem mem_matchRecordsFrom (f : String) (lines : List String)
    (pred : String → Bool) (w : Nat) :
    ∀ (rem : List String) (i : Nat) (r : MatchRecord),
      r ∈ matchRecordsFrom f lines pred w rem i ↔
        ∃ j, ∃ hj : j < rem.length,
          pred (rem.get ⟨j, hj⟩) = true ∧ r = mkRec f lines w (i + j) := by
  intro rem
  induction rem with
  | nil =>
    intro i r
    simp [matchRecordsFrom]
  | cons line rem ih =>
    intro i r
    rw [matchRecordsFrom]
    by_cases hp : pred line
    · simp only [hp, if_pos, List.mem_append, List.mem_singleton]
      constructor
      · rintro (rfl | hr)
        · exact ⟨0, by simp, by simpa using hp, by simp⟩
        · obtain ⟨j, hj, hpred, rfl⟩ := (ih (i + 1) r).1 hr
          refine ⟨j + 1, by simpa using hj, by simpa using hpred, ?_⟩
          have harith : i + 1 + j = i + (j + 1) := by omega
          rw [harith]
      · rintro ⟨j, hj, hpred, rfl⟩
        cases j with
        | zero => left; simp
        | succ j' =>
          right
          refine (ih (i + 1) _).2 ⟨j', by simpa using hj, by simpa using hpred, ?_⟩
          have harith : i + 1 + j' = i + (j' + 1) := by omega
          rw [harith]
    · simp only [hp, Bool.false_eq_true, if_neg, not_false_iff, List.nil_append]
      rw [ih (i + 1) r]
      constructor
      · rintro ⟨j, hj, hpred, rfl⟩
        refine ⟨j + 1, by simpa using hj, by simpa using hpred, ?_⟩
        have harith : i + 1 + j = i + (j + 1) := by omega
        rw [harith]
      · rintro ⟨j, hj, hpred, rfl⟩
        cases j with
        | zero => simp at hpred; exact absurd hpred hp
        | succ j' =>
          refine ⟨j', by simpa using hj, by simpa using hpred, ?_⟩
          have harith : i + 1 + j' = i + (j' + 1) := by omega
          rw [harith]

/-- The snippet the specification promises for a match at 1-based line i in a
file of N lines and window w: the lines from max(1, i - w) through
min(N, i + w) inclusive, in order, joined with newlines. -/
def specSnippet (lines : List String) (i w : Nat) : String :=
  String.intercalate "\n"
    ((lines.drop (max 1 (i - w) - 1)).take
      (min lines.length (i + w) + 1 - max 1 (i - w)))

/-- The record the code builds at 0-based index i - 1 carries exactly the
1-based line number i and the snippet the specification promises. -/
theorem mkRec_eq_spec (f : String) (lines : List String) (w i : Nat)
    (h1 : 1 ≤ i) :
    mkRec f lines w (i - 1) = ⟨f, i, specSnippet lines i w⟩ := by
  have hline : i - 1 + 1 = i := by omega
  have hdrop : i - 1 - w = max 1 (i - w) - 1 := by omega
  have htake : min lines.length (i - 1 + w + 1) - (i - 1 - w) =
      min lines.length (i + w) + 1 - max 1 (i - w) := by omega
  simp only [mkRec, specSnippet]
  rw [hline, htake, hdrop]

/-- Searching a single readable file is the uncapped hit list of that file,
truncated to the cap. -/
theorem searchFiles_single (rf : String → Option String) (p c : String)
    (pred : String → Bool) (w maxR : Nat) (hread : rf p = some c) :
    searchFiles rf [p] pred w maxR = (fileMatches p pred w c).take maxR := by
  rw [searchFiles_eq_take, allMatches, hread]
  dsimp only
  rw [allMatches]
  simp

/-- C2: for a readable file whose uncapped hit count fits under the cap, a
match at 1-based line i yields a record carrying line number i, and a snippet
that is exactly the lines max(1, i - w) through min(N, i + w) inclusive joined
with newlines; moreover any returned record for line i is that record. -/
theorem claim_C2 (rf : String → Option String) (p c : String)
    (pred : String → Bool) (w maxR i : Nat) (hread : rf p = some c)
    (h1 : 1 ≤ i) (hN : i ≤ (splitLines c).length)
    (hmatch : pred ((splitLines c).getD (i - 1) "") = true)
    (hcap : (fileMatches p pred w c).length ≤ maxR) :
    (⟨p, i, specSnippet (splitLines c) i w⟩ : MatchRecord) ∈
        searchFiles rf [p] pred w maxR ∧
    ∀ r ∈ searchFiles rf [p] pred w maxR,
      r.line = i → r = ⟨p, i, specSnippet (splitLines c) i w⟩ := by
  have hidx : i - 1 < (splitLines c).length := by omega
  have hall : searchFiles rf [p] pred w maxR = fileMatches p pred w c := by
    rw [searchFiles_single rf p c pred w maxR hread, List.take_of_length_le hcap]
  have hget : (splitLines c).getD (i - 1) "" = (splitLines c).get ⟨i - 1, hidx⟩ := by
    simp [List.getD_eq_getElem?_getD, List.getElem?_eq_getElem hidx]
  constructor
  · rw [hall, fileMatches_def]
    refine (mem_matchRecordsFrom p (splitLines c) pred w (splitLines c) 0 _).2
      ⟨i - 1, hidx, ?_, ?_⟩
    · rw [← hget]; exact hmatch
    · rw [Nat.zero_add, mkRec_eq_spec p (splitLines c) w i h1]
  · intro r hr hline
    rw [hall, fileMatches_def] at hr
    obtain ⟨j, hj, hpred, rfl⟩ :=
      (mem_matchRecordsFrom p (splitLines c) pred w (splitLines c) 0 r).1 hr
    have hji : j = i - 1 := by
      have : (mkRec p (splitLines c) w (0 + j)).line = 0 + j + 1 := rfl
      omega
    rw [hji] at *
    rw [Nat.zero_add, mkRec_eq_spec p (splitLines c) w i h1]

/-- Closed instance of C2: the middle line of a three-line file with window 1
yields the whole file as snippet. -/
theorem claim_C2_witness :
    (⟨"f", 2, specSnippet (splitLines "aa\nbb\ncc") 2 1⟩ : MatchRecord) ∈
      searchFiles (fun _ => some "aa\nbb\ncc") ["f"] (fun s => s == "bb") 1 5 :=
  (claim_C2 (fun _ => some "aa\nbb\ncc") "f" "aa\nbb\ncc" (fun s => s == "bb") 1 5 2
    rfl (by decide) (by decide) (by decide) (by decide)).1

/-- The characters in the regex character class of escapeRegExp. -/
def metaChars : List Char :=
  ['.', '*', '+', '?', '^', '$', '\x7b', '\x7d', '(', ')', '|', '[', ']', '\\']

/-- Character-level escaping: each metacharacter is replaced by a backslash
followed by itself (the replacement backslash-dollar-ampersand). -/
def escChars : List Char → List Char
  | [] => []
  | c :: rest =>
    if c ∈ metaChars then '\\' :: c :: escChars rest else c :: escChars rest

/-- Embeds escapeRegExp(string). -/
def escapeRegExp (s : String) : String :=
  String.mk (escChars s.data)

/-- Embeds Array.prototype.join with separator bar, at the character level. -/
def joinBarChars : List (List Char) → List Char
  | [] => []
  | [t] => t
  | t :: t' :: ts => t ++ '|' :: joinBarChars (t' :: ts)

/-- Embeds tokens.join with separator bar on strings. -/
def joinBar (tokens : List String) : String :=
  String.mk (joinBarChars (tokens.map String.data))

/-- An atom of the regex sublanguage the program emits: a wildcard dot or a
(possibly escaped) literal character. -/
inductive RAtom where
  | dot : RAtom
  | lit : Char → RAtom
deriving DecidableEq, Repr

/-- Parse a single alternation branch into atoms: a backslash escapes the
next character into a literal, an unescaped dot is the wildcard, anything
else is a literal character. -/
def parseAtoms : List Char → List RAtom
  | [] => []
  | c :: rest =>
    if c = '\\' then
      match rest with
      | [] => []
      | d :: rest' => RAtom.lit d :: parseAtoms rest'
    else if c = '.' then RAtom.dot :: parseAtoms rest
    else RAtom.lit c :: parseAtoms rest

/-- Split a pattern into its top-level alternation branches: an unescaped bar
separates branches and a backslash keeps the following character inside the
current branch. -/
def splitAltAux : List Char → List Char → List (List Char)
  | [], acc => [acc.reverse]
  | c :: rest, acc =>
    if c = '\\' then
      match rest with
      | [] => [(c :: acc).reverse]
      | d :: rest' => splitAltAux rest' (d :: c :: acc)
    else if c = '|' then acc.reverse :: splitAltAux rest []
    else splitAltAux rest (c :: acc)

/-- Case-insensitive character comparison (the regex i flag), modelled by
lower-casing both sides. -/
def ciEqChar (a b : Char) : Bool :=
  a.toLower == b.toLower

/-- Whether one atom matches one character; the wildcard dot matches every
character except a line terminator. -/
def atomMatches : RAtom → Char → Bool
  | RAtom.dot, c => !(c = '\n' ∨ c = '\r' ∨ c = '\u2028' ∨ c = '\u2029' : Bool)
  | RAtom.lit a, c => ciEqChar a c

/-- Whether the atom sequence matches a prefix of the character list. -/
def atomsMatchHere : List RAtom → List Char → Bool
  | [], _ => true
  | _ :: _, [] => false
  | a :: as, c :: cs => atomMatches a c && atomsMatchHere as cs

/-- Whether the atom sequence matches at some position of the character
list (the regex engine scanning every start position). -/
def atomsMatchSomewhere (as : List RAtom) : List Char → Bool
  | [] => atomsMatchHere as []
  | c :: cs => atomsMatchHere as (c :: cs) || atomsMatchSomewhere as cs

/-- Embeds new RegExp(pattern, i-flag).test(line) for the pattern fragment
the program emits: alternation of branches of literal (or escaped) atoms. -/
def regexTest (pattern line : String) : Bool :=
  (splitAltAux pattern.data []).any
    (fun br => atomsMatchSomewhere (parseAtoms br) line.data)

/-- The per-line predicate main builds: escape every token, join the escaped
tokens with bars, and test the resulting case-insensitive regex. -/
def predOf (tokens : List String) (line : String) : Bool :=
  regexTest (joinBar (tokens.map escapeRegExp)) line

example : predOf ["a.b"] "xxa.byy" = true := by decide
example : predOf ["a.b"] "xxaqbyy" = false := by decide
example : predOf ["foo", "bar"] "say FOO now" = true := by decide
example : predOf ["foo", "bar"] "only bar here" = true := by decide
example : predOf ["foo", "bar"] "neither" = false := by decide

/-- Unfolding steps for parseAtoms. -/
theorem parseAtoms_escaped (c : Char) (l : List Char) :
    parseAtoms ('\\' :: c :: l) = RAtom.lit c :: parseAtoms l := by
  rw [parseAtoms.eq_def]
  simp

/-- Unfolding step for parseAtoms on an ordinary character. -/
theorem parseAtoms_char (c : Char) (l : List Char) (h1 : c ≠ '\\') (h2 : c ≠ '.') :
    parseAtoms (c :: l) = RAtom.lit c :: parseAtoms l := by
  rw [parseAtoms.eq_def]
  simp [h1, h2]

/-- Unfolding step for the branch splitter on an escape pair. -/
theorem splitAltAux_escaped (c : Char) (rest acc : List Char) :
    splitAltAux ('\\' :: c :: rest) acc = splitAltAux rest (c :: '\\' :: acc) := by
  rw [splitAltAux.eq_def]
  simp

/-- Unfolding step for the branch splitter on an unescaped bar. -/
theorem splitAltAux_bar (rest acc : List Char) :
    splitAltAux ('|' :: rest) acc = acc.reverse :: splitAltAux rest [] := by
  rw [splitAltAux.eq_def]
  simp

/-- Unfolding step for the branch splitter on an ordinary character. -/
theorem splitAltAux_char (c : Char) (rest acc : List Char)
    (h1 : c ≠ '\\') (h2 : c ≠ '|') :
    splitAltAux (c :: rest) acc = splitAltAux rest (c :: acc) := by
  rw [splitAltAux.eq_def]
  simp [h1, h2]

/-- Parsing an escaped token yields exactly its characters as literal atoms:
escaping removes every wildcard and operator meaning. -/
theorem parseAtoms_escChars : ∀ l : List Char, parseAtoms (escChars l) = l.map RAtom.lit := by
  intro l
  induction l with
  | nil => rfl
  | cons c rest ih =>
    rw [escChars]
    by_cases hm : c ∈ metaChars
    · rw [if_pos hm, parseAtoms_escaped, ih]
      simp
    · have h1 : c ≠ '\\' := by rintro rfl; exact hm (by decide)
      have h2 : c ≠ '.' := by rintro rfl; exact hm (by decide)
      rw [if_neg hm, parseAtoms_char c _ h1 h2, ih]
      simp

/-- The branch splitter passes over an escaped token without starting a new
branch, accumulating its characters unchanged. -/
theorem splitAltAux_esc : ∀ (t rest acc : List Char),
    splitAltAux (escChars t ++ rest) acc =
      splitAltAux rest ((escChars t).reverse ++ acc) := by
  intro t
  induction t with
  | nil => intro rest acc; simp [escChars]
  | cons c t' ih =>
    intro rest acc
    rw [escChars]
    by_cases hm : c ∈ metaChars
    · rw [if_pos hm, List.cons_append, List.cons_append, splitAltAux_escaped]
      rw [ih rest (c :: '\\' :: acc)]
      simp
    · have h1 : c ≠ '\\' := by rintro rfl; exact hm (by decide)
      have h2 : c ≠ '|' := by rintro rfl; exact hm (by decide)
      rw [if_neg hm, List.cons_append, splitAltAux_char c _ _ h1 h2]
      rw [ih rest (c :: acc)]
      simp

/-- Splitting the bar-joined escaped tokens recovers exactly the escaped
tokens: no token can smuggle in an extra alternation branch. -/
theorem splitAltAux_joinBar : ∀ (t : List Char) (ts : List (List Char)),
    splitAltAux (joinBarChars ((t :: ts).map escChars)) [] =
      (t :: ts).map escChars := by
  intro t ts
  induction ts generalizing t with
  | nil =>
    rw [List.map_cons, List.map_nil,
      show joinBarChars [escChars t] = escChars t from rfl]
    rw [← List.append_nil (escChars t), splitAltAux_esc t [] []]
    simp [splitAltAux]
  | cons t' ts ih =>
    rw [List.map_cons,
      show joinBarChars (escChars t :: ((t' :: ts).map escChars)) =
        escChars t ++ '|' :: joinBarChars ((t' :: ts).map escChars) from ?_]
    · rw [splitAltAux_esc t ('|' :: joinBarChars ((t' :: ts).map escChars)) []]
      rw [splitAltAux_bar]
      rw [show ((escChars t).reverse ++ ([] : List Char)).reverse = escChars t by simp]
      rw [ih t']
    · rw [List.map_cons, joinBarChars.eq_def]

/-- A sequence of literal atoms matches a prefix of a character list exactly
when the lowered token is a prefix of the lowered list. -/
theorem atomsMatchHere_lits : ∀ (t cs : List Char),
    atomsMatchHere (t.map RAtom.lit) cs = true ↔
      t.map Char.toLower <+: cs.map Char.toLower := by
  intro t
  induction t with
  | nil => intro cs; simp [atomsMatchHere]
  | cons a t' ih =>
    intro cs
    cases cs with
    | nil => simp [atomsMatchHere]
    | cons c cs' =>
      rw [List.map_cons, atomsMatchHere, List.map_cons, List.map_cons]
      rw [Bool.and_eq_true, List.cons_prefix_cons]
      rw [ih cs']
      constructor
      · rintro ⟨h1, h2⟩
        refine ⟨?_, h2⟩
        simpa [atomMatches, ciEqChar] using h1
      · rintro ⟨h1, h2⟩
        refine ⟨?_, h2⟩
        simpa [atomMatches, ciEqChar] using h1

/-- A sequence of literal atoms matches somewhere in a character list exactly
when the lowered token is an infix of the lowered list: the case-insensitive
substring test. -/
theorem atomsMatchSomewhere_lits : ∀ (cs t : List Char),
    atomsMatchSomewhere (t.map RAtom.lit) cs = true ↔
      t.map Char.toLower <:+: cs.map Char.toLower := by
  intro cs
  induction cs with
  | nil =>
    intro t
    rw [atomsMatchSomewhere, atomsMatchHere_lits]
    simp
  | cons c cs' ih =>
    intro t
    rw [atomsMatchSomewhere, Bool.or_eq_true, atomsMatchHere_lits, ih t]
    rw [List.map_cons, List.infix_cons_iff]

/-- The predicate built from a nonempty token list holds on a line exactly
when some token occurs in the line as a case-insensitive substring: literal
OR-of-substrings semantics. -/
theorem predOf_iff (t : String) (ts : List String) (line : String) :
    predOf (t :: ts) line = true ↔
      ∃ tok ∈ t :: ts, tok.data.map Char.toLower <:+: line.data.map Char.toLower := by
  unfold predOf regexTest joinBar
  have hdata : ((t :: ts).map escapeRegExp).map String.data =
      (t :: ts).map (fun tok => escChars tok.data) := by
    simp [escapeRegExp]
  rw [show (String.mk (joinBarChars (((t :: ts).map escapeRegExp).map String.data))).data
      = joinBarChars (((t :: ts).map escapeRegExp).map String.data) from rfl]
  rw [hdata, show (t :: ts).map (fun tok => escChars tok.data)
      = ((t :: ts).map String.data).map escChars by simp]
  rw [List.map_cons, splitAltAux_joinBar]
  rw [List.any_eq_true]
  constructor
  · rintro ⟨br, hbr, hmatch⟩
    rw [← List.map_cons, List.mem_map] at hbr
    obtain ⟨cd, hcd, rfl⟩ := hbr
    rw [List.mem_map] at hcd
    obtain ⟨tok, htok, rfl⟩ := hcd
    refine ⟨tok, htok, ?_⟩
    rw [parseAtoms_escChars] at hmatch
    exact (atomsMatchSomewhere_lits line.data tok.data).1 hmatch
  · rintro ⟨tok, htok, hinf⟩
    refine ⟨escChars tok.data, ?_, ?_⟩
    · rw [← List.map_cons, List.mem_map]
      exact ⟨tok.data, List.mem_map_of_mem String.data htok, rfl⟩
    · rw [parseAtoms_escChars]
      exact (atomsMatchSomewhere_lits line.data tok.data).2 hinf

/-- C4: a single token is matched as a literal, case-insensitive substring:
the predicate holds exactly when the token occurs verbatim (up to case) in
the line; in particular a dot in the token is not a wildcard. -/
theorem claim_C4 :
    (∀ (tok line : String),
      predOf [tok] line = true ↔
        tok.data.map Char.toLower <:+: line.data.map Char.toLower) ∧
    predOf ["a.b"] "xxa.byy" = true ∧
    predOf ["a.b"] "xxavbyy" = false ∧
    predOf ["a.b"] "xxA.Byy" = true := by
  refine ⟨fun tok line => predOf_iff tok [] line |>.trans ?_, by decide, by decide, by decide⟩
  simp

/-- C5: for a multi-token query the predicate is the logical OR of the
case-insensitive substring tests of the tokens, as on the two-token query
built from the string "foo bar", which matches a line containing FOO. -/
theorem claim_C5 :
    (∀ (t : String) (ts : List String) (line : String),
      predOf (t :: ts) line = true ↔
        ∃ tok ∈ t :: ts,
          tok.data.map Char.toLower <:+: line.data.map Char.toLower) ∧
    predOf ["foo", "bar"] "say FOO now" = true ∧
    predOf ["foo", "bar"] "only bar here" = true ∧
    predOf ["foo", "bar"] "neither" = false :=
  ⟨predOf_iff, by decide, by decide, by decide⟩

/-- The ASCII whitespace characters of the regex class backslash-s, as far as
they can occur in command-line arguments. -/
def jsWs (c : Char) : Bool :=
  c = ' ' ∨ c = '\t' ∨ c = '\n' ∨ c = '\r' ∨ c = '\x0b' ∨ c = '\x0c'

/-- Embeds String.prototype.trim on the query. -/
def jsTrim (s : String) : String :=
  String.mk (((s.data.dropWhile jsWs).reverse.dropWhile jsWs).reverse)

/-- Embeds String.prototype.split on the regex of whitespace runs: a
whitespace character closes the current token, a run of further whitespace is
skipped (the gap flag), and leading or trailing whitespace produces an empty
token, as in JavaScript. -/
def splitWsAux : List Char → List Char → Bool → List String
  | [], acc, _ => [String.mk acc.reverse]
  | c :: rest, acc, inGap =>
    if jsWs c then
      if inGap then splitWsAux rest acc true
      else String.mk acc.reverse :: splitWsAux rest [] true
    else splitWsAux rest (c :: acc) false

/-- Embeds query.split on whitespace runs. -/
def splitWs (s : String) : List String :=
  splitWsAux s.data [] false

example : splitWs "foo bar" = ["foo", "bar"] := by decide
example : splitWs "foo   bar baz" = ["foo", "bar", "baz"] := by decide
example : jsTrim "  foo  " = "foo" := by decide
example : jsTrim "   " = "" := by decide

/-- The fixed ignore set built in main. -/
def ignoreDirsDefault : List String :=
  ["node_modules", "vendor", "third_party", ".git", "dist", "build",
   "tests", "test", "__tests__"]

/-- The extension allow-list of walk. -/
def allowedExt : List String :=
  [".js", ".ts", ".jsx", ".tsx", ".py", ".go", ".java", ".c", ".cpp", ".h",
   ".cs", ".rb", ".php", ".swift", ".rs", ".sh", ".yaml", ".yml", ".json",
   ".env", ".toml", ".ini", ".md", ".txt"]

/-- Index of the last occurrence of a character in a character list. -/
def lastIdxOf (c : Char) : List Char → Option Nat
  | [] => none
  | x :: xs =>
    match lastIdxOf c xs with
    | some j => some (j + 1)
    | none => if x = c then some 0 else none

/-- Embeds path.extname on a directory-entry name: the substring from the
last dot, except that a name with no dot, a name whose only dot is its first
character (a hidden file), and the special name dot-dot have no extension. -/
def extname (name : String) : String :=
  if name = ".." then ""
  else
    match lastIdxOf '.' name.data with
    | none => ""
    | some 0 => ""
    | some i => String.mk (name.data.drop i)

/-- Embeds String.prototype.toLowerCase, ASCII range. -/
def strToLower (s : String) : String :=
  String.mk (s.data.map Char.toLower)

example : extname "a.PY" = ".PY" := by decide
example : strToLower (extname "a.PY") = ".py" := by decide
example : extname "noext" = "" := by decide
example : extname ".env" = "" := by decide
example : extname "a.b.c" = ".c" := by decide

/-- One entry of the modelled file system: a regular file carries the result
of a stat call (none when stat throws) and the result of a readFile call
(none when reading or decoding throws); a directory carries its entries; any
other entry kind (symlink, socket, ...) is opaque. -/
inductive FsEntry where
  | file : String → Option Nat → Option String → FsEntry
  | dir : String → List FsEntry → FsEntry
  | other : String → FsEntry

mutual
/-- Embeds the body of the for-loop of walk for one directory entry. -/
def walkEntry (ign : List String) (p : String) : FsEntry → List String
  | FsEntry.dir name sub =>
      if name ∈ ign then [] else walkEntries ign (p ++ "/" ++ name) sub
  | FsEntry.file name sz _ =>
      let ext := strToLower (extname name)
      if ext ∈ allowedExt then [p ++ "/" ++ name]
      else
        match sz with
        | some n => if n < 1024 * 1024 then [p ++ "/" ++ name] else []
        | none => []
  | FsEntry.other _ => []

/-- Embeds walk(dir, ignoreDirs, fileList): the pushes performed over a list
of directory entries, in order. -/
def walkEntries (ign : List String) (p : String) : List FsEntry → List String
  | [] => []
  | e :: rest => walkEntry ign p e ++ walkEntries ign p rest
end

/-- The pure core of main, after argument parsing: trim and validate the
query, build the predicate from the whitespace-split tokens, walk the tree
and run the capped search.  The error value is the message printed before
process.exit(1). -/
def mainRun (rawQuery rootDir : String) (rootEntries : List FsEntry)
    (rf : String → Option String) (w maxR : Nat) :
    Except String (List MatchRecord) :=
  let query := jsTrim rawQuery
  if query = "" then Except.error "Please provide a search query."
  else
    let tokens := splitWs query
    let fileList := walkEntries ignoreDirsDefault rootDir rootEntries
    Except.ok (searchFiles rf fileList (predOf tokens) w maxR)

/-- C3: a query that trims to the empty string makes the run fail with the
empty-query error, whatever the file tree and file contents are: no traversal
or predicate construction can influence the outcome, and no match-everything
predicate is built. -/
theorem claim_C3 (rawQuery rootDir : String) (rootEntries : List FsEntry)
    (rf : String → Option String) (w maxR : Nat)
    (h : jsTrim rawQuery = "") :
    mainRun rawQuery rootDir rootEntries rf w maxR =
      Except.error "Please provide a search query." := by
  unfold mainRun
  rw [h]
  rfl

/-- Closed instance of C3: a blank query is rejected. -/
theorem claim_C3_witness :
    mainRun "   " "." [] (fun _ => none) 3 5 =
      Except.error "Please provide a search query." :=
  claim_C3 "   " "." [] (fun _ => none) 3 5 (by decide)

mutual
/-- Replace the contents of every directory whose name is in the ignore set,
at any depth, by the empty list. -/
def pruneEntry (ign : List String) : FsEntry → FsEntry
  | FsEntry.dir name sub =>
      if name ∈ ign then FsEntry.dir name [] else FsEntry.dir name (pruneList ign sub)
  | e => e

/-- Prune every entry of a list. -/
def pruneList (ign : List String) : List FsEntry → List FsEntry
  | [] => []
  | e :: rest => pruneEntry ign e :: pruneList ign rest
end

mutual
/-- The traversal of an entry is unchanged when the contents of every ignored
directory anywhere beneath it are discarded. -/
theorem walkEntry_prune (ign : List String) (p : String) (e : FsEntry) :
    walkEntry ign p (pruneEntry ign e) = walkEntry ign p e := by
  cases e with
  | dir name sub =>
    rw [pruneEntry]
    by_cases hn : name ∈ ign
    · rw [if_pos hn, walkEntry, if_pos hn, walkEntry, if_pos hn]
    · rw [if_neg hn, walkEntry, if_neg hn, walkEntry, if_neg hn]
      exact walkEntries_prune ign (p ++ "/" ++ name) sub
  | file name sz content => rfl
  | other name => rfl

/-- The traversal of an entry list is unchanged under pruning. -/
theorem walkEntries_prune (ign : List String) (p : String) (es : List FsEntry) :
    walkEntries ign p (pruneList ign es) = walkEntries ign p es := by
  cases es with
  | nil => rfl
  | cons e rest =>
    rw [pruneList, walkEntries, walkEntries]
    rw [walkEntry_prune ign p e, walkEntries_prune ign p rest]
end

/-- C6: a directory whose name is in the ignore set is skipped entirely: it
contributes nothing to the traversal output whatever its contents are (no
descent), and, at any depth, emptying every ignored directory leaves the
traversal output unchanged, so no file beneath an ignored directory ever
appears; the traversal is total, so no error is raised. -/
theorem claim_C6 (ign : List String) :
    (∀ (d : String) (sub : List FsEntry) (p : String), d ∈ ign →
      walkEntry ign p (FsEntry.dir d sub) = []) ∧
    (∀ (p : String) (entries : List FsEntry),
      walkEntries ign p (pruneList ign entries) = walkEntries ign p entries) := by
  constructor
  · intro d sub p hd
    rw [walkEntry, if_pos hd]
  · intro p entries
    exact walkEntries_prune ign p entries

/-- Closed instance of C6: a populated node_modules directory produces no
output when node_modules is ignored. -/
theorem claim_C6_witness :
    walkEntry ["node_modules"] "root"
      (FsEntry.dir "node_modules" [FsEntry.file "b.py" (some 5) none]) = [] :=
  (claim_C6 ["node_modules"]).1 "node_modules" [FsEntry.file "b.py" (some 5) none]
    "root" (by decide)

/-- Unfolding equation for the traversal of a regular file. -/
theorem walkEntry_file (ign : List String) (p name : String) (sz : Option Nat)
    (content : Option String) :
    walkEntry ign p (FsEntry.file name sz content) =
      (if strToLower (extname name) ∈ allowedExt then [p ++ "/" ++ name]
       else
         match sz with
         | some n => if n < 1024 * 1024 then [p ++ "/" ++ name] else []
         | none => []) := by
  rw [walkEntry.eq_def]

/-- C7: a regular file with an allow-listed (lower-cased) extension is output
whatever its stat result is (none included, so no stat is needed); a file
with an unrecognized extension is output exactly when its stat succeeds with
a size strictly below 1 MiB; a failed stat skips the file silently. -/
theorem claim_C7 (ign : List String) (p name : String) (content : Option String) :
    (∀ sz : Option Nat, strToLower (extname name) ∈ allowedExt →
      walkEntry ign p (FsEntry.file name sz content) = [p ++ "/" ++ name]) ∧
    (∀ n : Nat, strToLower (extname name) ∉ allowedExt → n < 1024 * 1024 →
      walkEntry ign p (FsEntry.file name (some n) content) = [p ++ "/" ++ name]) ∧
    (∀ n : Nat, strToLower (extname name) ∉ allowedExt → 1024 * 1024 ≤ n →
      walkEntry ign p (FsEntry.file name (some n) content) = []) ∧
    (strToLower (extname name) ∉ allowedExt →
      walkEntry ign p (FsEntry.file name none content) = []) := by
  refine ⟨?_, ?_, ?_, ?_⟩
  · intro sz hext
    rw [walkEntry_file]
    simp only [hext, if_pos]
  · intro n hext hsz
    rw [walkEntry_file]
    rw [if_neg hext]
    simp only [hsz, if_pos]
  · intro n hext hsz
    rw [walkEntry_file]
    rw [if_neg hext]
    exact if_neg (by omega)
  · intro hext
    rw [walkEntry_file]
    rw [if_neg hext]

/-- Closed instance of C7: an allow-listed file is output even though its
stat fails, and an oversized unknown-extension file is not output. -/
theorem claim_C7_witness :
    walkEntry [] "r" (FsEntry.file "m.py" none none) = ["r/m.py"] ∧
    walkEntry [] "r" (FsEntry.file "big.bin" (some 2097152) none) = [] :=
  ⟨(claim_C7 [] "r" "m.py" none).1 none (by decide),
   (claim_C7 [] "r" "big.bin" none).2.2.1 2097152 (by decide) (by decide)⟩

/-- C10: the ignore set is consulted only for directories: the traversal of a
regular file is independent of the ignore set, an entry that is neither a
regular file nor a directory is silently dropped and never descended into,
and a regular file literally named node_modules is still accepted under the
file policy even when node_modules is in the ignore set. -/
theorem claim_C10 (ign ign2 : List String) (p name : String) (sz : Option Nat)
    (content : Option String) :
    walkEntry ign p (FsEntry.file name sz content) =
      walkEntry ign2 p (FsEntry.file name sz content) ∧
    walkEntry ign p (FsEntry.other name) = [] ∧
    walkEntry ignoreDirsDefault p (FsEntry.file "node_modules" (some 10) none) =
      [p ++ "/" ++ "node_modules"] := by
  refine ⟨rfl, rfl, ?_⟩
  rw [walkEntry_file]
  rw [if_neg (by decide : ¬ strToLower (extname "node_modules") ∈ allowedExt)]
  exact if_pos (by decide : (10 : Nat) < 1024 * 1024)

/-- The console lines printed by the catch branch of the summarization call:
the error report, the Snippets header, and one locator line per match built
from the template with index, file and line number. -/
def renderApiFailure (errMsg : String) (results : List MatchRecord) : List String :=
  ("Error calling OpenAI API: " ++ errMsg) :: "Snippets:" ::
    results.enum.map
      (fun pr => "[" ++ toString (pr.1 + 1) ++ "] " ++ pr.2.file ++ ":" ++ toString pr.2.line)

/-- The console lines printed after the search, as a function of the outcome
of the summarization call: on success the trimmed summary, on failure the
fallback of renderApiFailure. -/
def summarizeAndReport (results : List MatchRecord) (api : Except String String) :
    List String :=
  match api with
  | Except.ok summary => [jsTrim summary]
  | Except.error msg => renderApiFailure msg results

/-- An element of a list, paired with its index, is a member of the
enumeration of the list. -/
theorem memEnumGet {α : Type} (l : List α) (k : Nat) (hk : k < l.length) :
    (k, l.get ⟨k, hk⟩) ∈ l.enum := by
  rw [List.mk_mem_enum_iff_getElem?]
  simp [List.getElem?_eq_getElem hk]

/-- Counterexample to C9 as stated: for a concrete one-match ResultSet whose
snippet is the text MATCHTEXT, no line of the fallback output contains the
snippet text, so the raw ResultSet is not fully presented. -/
theorem claim_C9_counterexample :
    ¬ (∀ r ∈ ([⟨"a.py", 2, "ctx\nMATCHTEXT\nctx2"⟩] : List MatchRecord),
        ∃ out ∈ summarizeAndReport [⟨"a.py", 2, "ctx\nMATCHTEXT\nctx2"⟩]
            (Except.error "boom"),
          r.snippet.data <:+: out.data) := by
  decide

/-- C9 (amended): if the summarization call fails, the failure is reported as
a distinct error line, and, without re-running the search, each match of the
ResultSet is still presented by its file path and line number (the snippet
text is not part of the fallback output). -/
theorem claim_C9 (msg : String) (results : List MatchRecord) :
    summarizeAndReport results (Except.error msg) =
      ("Error calling OpenAI API: " ++ msg) :: "Snippets:" ::
        results.enum.map
          (fun pr => "[" ++ toString (pr.1 + 1) ++ "] " ++ pr.2.file ++ ":" ++
            toString pr.2.line) ∧
    ∀ (k : Nat) (hk : k < results.length),
      ("[" ++ toString (k + 1) ++ "] " ++ (results.get ⟨k, hk⟩).file ++ ":" ++
          toString (results.get ⟨k, hk⟩).line) ∈
        summarizeAndReport results (Except.error msg) := by
  refine ⟨rfl, ?_⟩
  intro k hk
  refine List.mem_cons_of_mem _ (List.mem_cons_of_mem _ ?_)
  exact List.mem_map_of_mem _ (memEnumGet results k hk)

/-- Closed instance of the amended C9: the locator of the single match is in
the fallback output. -/
theorem claim_C9_witness :
    ("[" ++ toString (0 + 1) ++ "] " ++ "a.py" ++ ":" ++ toString (2 : Nat)) ∈
      summarizeAndReport [⟨"a.py", 2, "snip"⟩] (Except.error "boom") :=
  (claim_C9 "boom" [⟨"a.py", 2, "snip"⟩]).2 0 (by decide)
